import Mathlib

/-!
Verification of the `mapper` Go package (github.com/dav-m85/mapper).

The development shallowly embeds `mapper.go` into Lean:

* Go struct types are values of `GoType`; their fields are `Field` records
  carrying the declared name, the exported flag and the struct tags
  (an association list from tag key to tag value, `""` meaning absent,
  matching `reflect.StructTag.Get`).
* The `mapper` struct is a Lean structure with the same fields
  (`fields`, `cols`, `target`, `Comma`, `Mark`, `FieldMapper`).
* Go panics are modelled by `Except.error` carrying the panic message;
  panics raised inside the `reflect` library keep their reflect message.
* `strings.ToLower` is modelled per character (`Char.toLower`), which
  agrees with Go on the ASCII field names used throughout.
-/

set_option maxHeartbeats 1000000
set_option linter.dupNamespace false

namespace Mapper

/-- A Go struct field: declared name, exported flag, and struct tags as an
association list (key, value).  `reflect.StructTag.Get` returns the first
value for the key and `""` when the key is absent. -/
structure Field where
  name : String
  exported : Bool
  tags : List (String × String)
deriving Repr, DecidableEq

/-- The fragment of Go's type structure the package inspects: struct types,
pointer types, and everything else (`prim`). -/
inductive GoType where
  | mk_struct (fields : List Field)
  | ptr (t : GoType)
  | prim (name : String)
deriving Repr, DecidableEq

/-- The fragment of `reflect.Kind` restricted to the cases `mapper.go` distinguishes. -/
inductive Kind where
  | struct
  | pointer
  | other
deriving Repr, DecidableEq

/-- Model of `reflect.Type.Kind`. -/
def kindOf : GoType → Kind
  | .mk_struct _ => .struct
  | .ptr _ => .pointer
  | .prim _ => .other

/-- The kind computed on lines 69-72 of `mapper.go`:
`k := t.Kind(); if k == reflect.Pointer { k = t.Elem().Kind() }`. -/
def derefKind (t : GoType) : Kind :=
  match t with
  | .ptr u => kindOf u
  | _ => kindOf t

/-- Model of `t.NumField()` / `t.Field(i)` access, as used by the loop on line 88:
on a non-struct type the reflect library panics. -/
def fieldsOf : GoType → Except String (List Field)
  | .mk_struct fs => .ok fs
  | _ => .error "reflect: NumField of non-struct type"

/-- Model of `reflect.StructTag.Get key` on a field: first value bound to `key`,
`""` when absent. -/
def tagGet (f : Field) (key : String) : String :=
  match f.tags.lookup key with
  | some v => v
  | none => ""

/-- The per-character model of Go's `strings.ToLower` (they agree on ASCII,
which covers all names appearing in this package's contracts and tests). -/
def goToLower (s : String) : String :=
  String.mk (s.data.map Char.toLower)

/-- Go's `strings.HasSuffix`, over the character lists. -/
def goHasSuffix (s suf : String) : Bool :=
  suf.data.isSuffixOf s.data

/-- The `mapper` struct of `mapper.go` (lines 21-41).  The Go `FieldMapper`
function field is nilable, hence an `Option`. -/
structure mapper where
  fields : List Nat
  cols : List String
  target : GoType
  Comma : Char
  Mark : Char
  FieldMapper : Option (String → String)

/-- The helper `fieldSlice.joker` (lines 269-276): whether `"*"` occurs in the slice. -/
def joker (fs : List String) : Bool :=
  fs.any (fun f => f == "*")

/-- The helper `fieldSlice.index` (lines 279-286): position of `name`, `none` for the
Go sentinel `-1`. -/
def index : List String → String → Option Nat
  | [], _ => none
  | f :: fs, name => if f == name then some 0 else (index fs name).map (· + 1)

/-- The swap-with-last-and-truncate removal of lines 115-116:
`columns[i] = columns[len(columns)-1]; columns = columns[:len(columns)-1]`. -/
def swapRemove (l : List String) (i : Nat) : List String :=
  (l.set i (l.getLastD "")).dropLast

/-- Lines 93-104 of `mapper.go`: the candidate column name of a field, or
`none` when the field is skipped because its tag value ends in `,ignore`. -/
def resolveCol (key : String) (fm : Option (String → String)) (f : Field) : Option String :=
  let t := tagGet f key
  if t ≠ "" then
    if goHasSuffix t ",ignore" then none else some t
  else
    match fm with
    | some g => some (g f.name)
    | none => some f.name

/-- The field loop of `MapperWithKey` (lines 88-126).  Arguments mirror the
Go state: the remaining fields with the current field index `i`, the working
copy `work` of the requested columns, and the accumulated `cols`/`flds`.
Returns the final working copy and the accumulated columns and field
positions, or the duplicate-column panic. -/
def buildLoop (key : String) (fm : Option (String → String)) (jk : Bool) :
    List Field → Nat → List String → List String → List Nat →
    Except String (List String × List String × List Nat)
  | [], _, work, cols, flds => .ok (work, cols, flds)
  | f :: rest, i, work, cols, flds =>
    if f.exported then
      match resolveCol key fm f with
      | none => buildLoop key fm jk rest (i + 1) work cols flds
      | some col =>
        -- lines 107-117: the requested-column filter (skipped under joker)
        let filtered : Option (List String) :=
          if jk then some work
          else
            match index work col with
            | none => none
            | some k => some (swapRemove work k)
        match filtered with
        | none => buildLoop key fm jk rest (i + 1) work cols flds
        | some work' =>
          -- lines 119-124: duplicate check, then append
          if (index cols col).isSome then
            .error ("Field " ++ col ++ " is mapped more than once")
          else
            buildLoop key fm jk rest (i + 1) work' (cols ++ [col]) (flds ++ [i])
    else
      buildLoop key fm jk rest (i + 1) work cols flds

/-- Model of `MapperWithKey` (lines 64-133). -/
def MapperWithKey (target : GoType) (key : String) (columns : List String) :
    Except String mapper :=
  if key = "" then
    .error "Mapper MUST have a non empty struct tag key."
  else if derefKind target ≠ .struct then
    .error "Mapper first argument MUST be a struct or a struct pointer"
  else if columns = [] then
    .error "Mapper MUST select at least one field"
  else
    let jk := joker columns
    match fieldsOf target with
    | .error e => .error e
    | .ok fs =>
      match buildLoop key (some goToLower) jk fs 0 columns [] [] with
      | .error e => .error e
      | .ok (work, cols, flds) =>
        if !jk && !work.isEmpty then
          .error ("Some fields are missing from target: " ++ String.intercalate "," work)
        else
          .ok { fields := flds, cols := cols, target := target,
                Comma := ',', Mark := '?', FieldMapper := some goToLower }

/-- Model of `Mapper` (lines 59-61): `MapperWithKey` with the default tag key. -/
def Mapper (target : GoType) (columns : List String) : Except String mapper :=
  MapperWithKey target "mapper" columns

/-- Model of `Columns` (lines 135-137). -/
def Columns (m : mapper) : List String :=
  m.cols

/-- The loop of `Subset` (lines 157-162), pairing `m.cols` with `m.fields`
in lockstep.  When `fields` is shorter than `cols` the Go code would panic
indexing `m.fields[i]`; that case never arises for a mapper satisfying the
length invariant. -/
def subsetLoop (req : List String) : List String → List Nat → List String × List Nat
  | [], _ => ([], [])
  | _ :: _, [] => ([], [])
  | c :: cs, f :: fls =>
    let r := subsetLoop req cs fls
    if (index req c).isSome then (c :: r.1, f :: r.2) else r

/-- Model of `Subset` (lines 142-164). -/
def Subset (m : mapper) (columns : List String) : mapper :=
  let nm : mapper :=
    { Comma := m.Comma, Mark := m.Mark, FieldMapper := m.FieldMapper,
      cols := [], fields := [], target := m.target }
  if columns = [] then nm
  else if joker columns then m
  else
    let r := subsetLoop columns m.cols m.fields
    { nm with cols := r.1, fields := r.2 }

/-- The builder loop of `ColumnsString` (lines 182-185): for each remaining
column, write the `Comma` rune then the column. -/
def joinCols (sep : Char) : List String → String
  | [] => ""
  | s :: rest => String.singleton sep ++ s ++ joinCols sep rest

/-- Model of `ColumnsString` (lines 169-187).  On an empty column list the builder
capacity `n` is `-1` and `strings.Builder.Grow` panics. -/
def ColumnsString (m : mapper) : Except String String :=
  match m.cols with
  | [] => .error "strings.Builder.Grow: negative count"
  | [c] => .ok c
  | c :: rest => .ok (c ++ joinCols m.Comma rest)

/-- The builder loop of `ColumnsStringPrefix` (lines 202-205): for each
remaining column, write the `Comma` rune then the prefixed column. -/
def joinColsPre (sep : Char) (pre : String) : List String → String
  | [] => ""
  | s :: rest => String.singleton sep ++ (pre ++ s) ++ joinColsPre sep pre rest

/-- Model of `ColumnsStringPrefix` (lines 189-207), named `ColumnsStringPre` here.
Same empty-list panic as `ColumnsString`. -/
def ColumnsStringPre (m : mapper) (pre : String) : Except String String :=
  match m.cols with
  | [] => .error "strings.Builder.Grow: negative count"
  | [c] => .ok (pre ++ c)
  | c :: rest => .ok (pre ++ c ++ joinColsPre m.Comma pre rest)

/-- The builder loop of `Marks` (lines 258-261): one `Comma` and one `Mark`
per remaining column. -/
def marksFor (sep mark : Char) : List String → String
  | [] => ""
  | _ :: rest => String.singleton sep ++ String.singleton mark ++ marksFor sep mark rest

/-- Model of `Marks` (lines 248-263).  Same empty-list panic. -/
def Marks (m : mapper) : Except String String :=
  match m.cols with
  | [] => .error "strings.Builder.Grow: negative count"
  | [_] => .ok (String.singleton m.Mark)
  | _ :: rest => .ok (String.singleton m.Mark ++ marksFor m.Comma m.Mark rest)

/-- Go's `strings.Split` on a one-rune separator, over the character list
of the string: the splitting operation of the round-trip property. -/
def splitGo (sep : Char) (s : String) : List String :=
  (s.data.splitOn sep).map String.mk

/-- Go's `strings.TrimPrefix`: drop `pre` when it is a prefix, else return
the string unchanged. -/
def trimPre (pre s : String) : String :=
  if pre.data.isPrefixOf s.data then String.mk (s.data.drop pre.data.length) else s

/-!  Specification-side vocabulary used to state properties of the resolver. -/

/-- The (column name, field position) pairs of all exported, non-ignored
fields of a field list, starting at field position `i`: the candidates the
resolver iterates over in declaration order. -/
def wildPairs (key : String) (fm : Option (String → String)) :
    Nat → List Field → List (String × Nat)
  | _, [] => []
  | i, f :: rest =>
    if f.exported then
      match resolveCol key fm f with
      | some c => (c, i) :: wildPairs key fm (i + 1) rest
      | none => wildPairs key fm (i + 1) rest
    else wildPairs key fm (i + 1) rest

/-- The resolved column names of the exported, non-ignored fields, in
declaration order. -/
def wildNames (key : String) (fm : Option (String → String)) (fs : List Field) :
    List String :=
  fs.filterMap (fun f => if f.exported then resolveCol key fm f else none)

/-- The resolved column name of the field at position `j`, or `none` when
the position is out of range, non-exported, or carries an `,ignore` tag. -/
def resolvedNameAt (key : String) (fm : Option (String → String))
    (fs : List Field) (j : Nat) : Option String :=
  match fs[j]? with
  | some f => if f.exported then resolveCol key fm f else none
  | none => none

/-- The first element of the list that repeats an element seen before it
(including the elements of `seen`), if any. -/
def firstDupAux (seen : List String) : List String → Option String
  | [] => none
  | x :: xs => if x ∈ seen then some x else firstDupAux (seen ++ [x]) xs

/-- The first duplicated element of a list. -/
def firstDup (l : List String) : Option String :=
  firstDupAux [] l

/-- The candidate pairs the non-wildcard filter keeps, given the working
copy `w` of the requested columns: a pair is kept when its column is still
present, and each kept pair removes its column from the working copy. -/
def selectPairs (w : List String) : List (String × Nat) → List (String × Nat)
  | [] => []
  | p :: rest =>
    if p.1 ∈ w then p :: selectPairs (w.erase p.1) rest
    else selectPairs w rest

/-- A Go value, at the granularity `Values`/`Addrs` inspect: a struct value
(carrying its struct type's field list and the field values), a pointer, or
some other value. -/
inductive GoVal where
  | mk_struct (ty : List Field) (vals : List GoVal)
  | mk_ptr (v : GoVal)
  | int (n : Int)
  | str (s : String)

/-- Model of `reflect.Value.Kind` on a `GoVal`. -/
def valKind : GoVal → Kind
  | .mk_struct _ _ => .struct
  | .mk_ptr _ => .pointer
  | _ => .other

/-- Model of `v.Elem()` for a pointer value (only invoked after a pointer check). -/
def valElem : GoVal → GoVal
  | .mk_ptr v => v
  | v => v

/-- Model of `v.Field(i).Interface()`: the i-th field value of a struct value, with
the reflect panics on a non-struct value or an out-of-range index. -/
def fieldAccess (v : GoVal) (i : Nat) : Except String GoVal :=
  match v with
  | .mk_struct _ vals =>
    match vals[i]? with
    | some x => .ok x
    | none => .error "reflect: Field index out of range"
  | _ => .error "reflect: call of reflect.Value.Field on non-struct Value"

/-- Model of `Values` (lines 231-243).  Note the check on line 236 tests
`reflect.TypeOf(v).Kind()` where `v` is a `reflect.Value` — the type of
`reflect.Value` itself is a struct, so that check never fires and no
"destination not a struct" panic is reachable; the only panics are the
reflect panics inside `v.Field(i)`. -/
def Values (m : mapper) (dest : GoVal) : Except String (List GoVal) :=
  let v := if valKind dest = .pointer then valElem dest else dest
  m.fields.mapM (fun i => fieldAccess v i)

/-- Model of `Addrs` (lines 213-227).  An address is modelled by the index of the
field it points to within the pointed-to struct value. -/
def Addrs (m : mapper) (dest : GoVal) : Except String (List Nat) :=
  match dest with
  | .mk_ptr (.mk_struct _ vals) =>
    m.fields.mapM (fun i =>
      if i < vals.length then .ok i else .error "reflect: Field index out of range")
  | .mk_ptr _ => .error "destination not a struct pointer"
  | _ => .error "destination not a pointer"

/-- Whether position `i` of the record type `t` names an exported field. -/
def exportedAtB (t : GoType) (i : Nat) : Bool :=
  match t with
  | .mk_struct fs =>
    match fs[i]? with
    | some f => f.exported
    | none => false
  | _ => false

/-- The Correspondence invariant of the specification: columns and fields
are aligned, no column repeats, and every field position names an exported
field of the record type the mapper was built from. -/
def mapperInv (m : mapper) : Prop :=
  m.cols.length = m.fields.length
  ∧ m.cols.Nodup
  ∧ ∀ i ∈ m.fields, exportedAtB m.target i = true

/-- The struct `{A string; B string mapper:"x,ignore"; b string}` used by
the C1 witness: one plain exported field, one ignore-tagged field, one
non-exported field. -/
def fsW1 : List Field :=
  [⟨"A", true, []⟩, ⟨"B", true, [("mapper", "x,ignore")]⟩, ⟨"b", false, []⟩]

/-- The mapper the wildcard build produces on `fsW1`. -/
def mW1 : mapper :=
  { fields := [0], cols := ["a"], target := GoType.mk_struct fsW1,
    Comma := ',', Mark := '?', FieldMapper := some goToLower }

/-- The struct `{A string; B string}` and the mapper its wildcard build
produces, used by the C7 witness. -/
def fsW7 : List Field := [⟨"A", true, []⟩, ⟨"B", true, []⟩]

/-- The mapper of the C7 witness. -/
def mW7 : mapper :=
  { fields := [0, 1], cols := ["a", "b"], target := GoType.mk_struct fsW7,
    Comma := ',', Mark := '?', FieldMapper := some goToLower }

/-- The four-column parent of the specification's `Subset` example. -/
def mW4 : mapper :=
  { fields := [0, 1, 2, 3], cols := ["a", "b", "c", "d"],
    target := GoType.mk_struct
      [⟨"A", true, []⟩, ⟨"B", true, []⟩, ⟨"C", true, []⟩, ⟨"D", true, []⟩],
    Comma := ',', Mark := '?', FieldMapper := some goToLower }

/-- The struct `{A string mapper:"b"; B string; C string}` of the C10
witness: both `A` and `B` resolve to `b`. -/
def fsW10 : List Field :=
  [⟨"A", true, [("mapper", "b")]⟩, ⟨"B", true, []⟩, ⟨"C", true, []⟩]

/-- The struct `{F string mapper:"a,b"}` and the mapper its wildcard build
produces: one column whose name contains the separator. -/
def mW8 : mapper :=
  { fields := [0], cols := ["a,b"],
    target := GoType.mk_struct [⟨"F", true, [("mapper", "a,b")]⟩],
    Comma := ',', Mark := '?', FieldMapper := some goToLower }

/-- The two-column mapper of the C8 witness. -/
def mW8w : mapper :=
  { fields := [0, 1], cols := ["a", "b"],
    target := GoType.mk_struct [⟨"A", true, []⟩, ⟨"B", true, []⟩],
    Comma := ',', Mark := '?', FieldMapper := some goToLower }

/-- The two-column mapper of the C9 witness and counterexample. -/
def mW9 : mapper :=
  { fields := [0, 1], cols := ["a", "b"],
    target := GoType.mk_struct [⟨"A", true, []⟩, ⟨"B", true, []⟩],
    Comma := ',', Mark := '?', FieldMapper := some goToLower }

/-- The mapper built from `struct{A string}` with a wildcard request, used
by the C5 and C6 evaluations. -/
def mW5 : mapper :=
  { fields := [0], cols := ["a"], target := GoType.mk_struct [⟨"A", true, []⟩],
    Comma := ',', Mark := '?', FieldMapper := some goToLower }

/-! ### Lemmas about `index` and `swapRemove` -/

theorem index_eq_none (l : List String) (a : String) :
    index l a = none ↔ a ∉ l := by
  induction l with
  | nil => simp [index]
  | cons x xs ih =>
    by_cases hx : x = a
    · subst hx; simp [index]
    · simp [index, hx, Ne.symm hx, Option.map_eq_none', ih]

theorem index_isSome (l : List String) (a : String) :
    (index l a).isSome = true ↔ a ∈ l := by
  rw [Option.isSome_iff_ne_none, ne_eq, index_eq_none, not_not]

theorem index_cons_of_ne (x : String) (xs : List String) (a : String) (h : x ≠ a) :
    index (x :: xs) a = (index xs a).map (· + 1) := by
  simp [index, h]

theorem swapRemove_cons_succ (x : String) (l : List String) (j : Nat) (hl : l ≠ []) :
    swapRemove (x :: l) (j + 1) = x :: swapRemove l j := by
  unfold swapRemove
  have hset : l.set j (l.getLastD "") ≠ [] := by
    intro h
    have := congrArg List.length h
    simp at this
    exact hl this
  have hlast : (x :: l).getLastD "" = l.getLastD "" := by
    cases l with
    | nil => exact absurd rfl hl
    | cons y ys => simp [List.getLastD_cons]
  rw [hlast]
  show ((x :: l).set (j + 1) (l.getLastD "")).dropLast = _
  rw [List.set_cons_succ]
  cases hc : l.set j (l.getLastD "") with
  | nil => exact absurd hc hset
  | cons z zs => rw [← hc, List.dropLast_cons_of_ne_nil hset]

theorem swapRemove_perm (l : List String) (a : String) (k : Nat)
    (h : index l a = some k) : List.Perm (swapRemove l k) (l.erase a) := by
  induction l generalizing k with
  | nil => simp [index] at h
  | cons x xs ih =>
    by_cases hx : x = a
    · subst hx
      have hk : k = 0 := by
        by_contra hne
        simp [index] at h
        omega
      subst hk
      rw [List.erase_cons_head]
      cases xs with
      | nil => simp [swapRemove]
      | cons y ys =>
        unfold swapRemove
        have hne : (y :: ys : List String) ≠ [] := by simp
        have hlast : (x :: y :: ys).getLastD "" = (y :: ys).getLast hne := by
          rw [List.getLastD_cons, List.getLastD_eq_getLast?,
            List.getLast?_eq_getLast _ hne]
          rfl
        show ((x :: y :: ys).set 0 ((x :: y :: ys).getLastD "")).dropLast.Perm (y :: ys)
        rw [hlast]
        show (((y :: ys).getLast hne) :: (y :: ys)).dropLast.Perm (y :: ys)
        rw [List.dropLast_cons_of_ne_nil hne]
        have hperm : List.Perm (((y :: ys).getLast hne) :: (y :: ys).dropLast)
            ((y :: ys).dropLast ++ [(y :: ys).getLast hne]) :=
          (List.perm_append_singleton _ _).symm
        rw [List.dropLast_append_getLast hne] at hperm
        exact hperm
    · rw [index_cons_of_ne x xs a hx] at h
      obtain ⟨j, hj, rfl⟩ := Option.map_eq_some'.mp h
      have hxs : xs ≠ [] := by
        intro hnil; subst hnil; simp [index] at hj
      rw [swapRemove_cons_succ x xs j hxs]
      rw [List.erase_cons_tail (by simp [hx])]
      exact (ih j hj).cons x

theorem swapRemove_perm_erase (l : List String) (a : String) (k : Nat)
    (h : index l a = some k) (ha : a ∈ l) :
    List.Perm (a :: swapRemove l k) l :=
  ((swapRemove_perm l a k h).cons a).trans (List.perm_cons_erase ha).symm

/-! ### Lemmas about the specification vocabulary -/

theorem wildPairs_map_fst (key : String) (fm : Option (String → String)) :
    ∀ (i : Nat) (fs : List Field),
      (wildPairs key fm i fs).map Prod.fst = wildNames key fm fs := by
  intro i fs
  induction fs generalizing i with
  | nil => simp [wildPairs, wildNames]
  | cons f rest ih =>
    by_cases hf : f.exported
    · cases hc : resolveCol key fm f with
      | none => simp [wildPairs, wildNames, hf, hc, ih (i + 1), List.filterMap_cons]
      | some c => simp [wildPairs, wildNames, hf, hc, ih (i + 1), List.filterMap_cons]
    · simp [wildPairs, wildNames, hf, ih (i + 1), List.filterMap_cons]

theorem wildPairs_mem (key : String) (fm : Option (String → String)) :
    ∀ (fs : List Field) (i : Nat) (c : String) (j : Nat),
      ((c, j) ∈ wildPairs key fm i fs ↔
        i ≤ j ∧ resolvedNameAt key fm fs (j - i) = some c) := by
  intro fs
  induction fs with
  | nil => simp [wildPairs, resolvedNameAt]
  | cons f rest ih =>
    intro i c j
    have htail : (c, j) ∈ wildPairs key fm (i + 1) rest ↔
        i + 1 ≤ j ∧ resolvedNameAt key fm rest (j - (i + 1)) = some c := ih (i + 1) c j
    by_cases hf : f.exported
    · cases hc : resolveCol key fm f with
      | none =>
        rw [show wildPairs key fm i (f :: rest) = wildPairs key fm (i + 1) rest by
          simp [wildPairs, hf, hc]]
        rw [htail]
        constructor
        · rintro ⟨hij, hr⟩
          refine ⟨by omega, ?_⟩
          have : j - i = (j - (i + 1)) + 1 := by omega
          rw [this]
          simpa [resolvedNameAt] using hr
        · rintro ⟨hij, hr⟩
          have hji : j ≠ i := by
            intro hji
            subst hji
            simp [resolvedNameAt, hf, hc, Nat.sub_self] at hr
          refine ⟨by omega, ?_⟩
          have : j - i = (j - (i + 1)) + 1 := by omega
          rw [this] at hr
          simpa [resolvedNameAt] using hr
      | some c0 =>
        rw [show wildPairs key fm i (f :: rest) =
            (c0, i) :: wildPairs key fm (i + 1) rest by simp [wildPairs, hf, hc]]
        simp only [List.mem_cons, htail, Prod.mk.injEq]
        constructor
        · rintro (⟨rfl, rfl⟩ | ⟨hij, hr⟩)
          · exact ⟨le_refl _, by simp [resolvedNameAt, hf, hc, Nat.sub_self]⟩
          · refine ⟨by omega, ?_⟩
            have : j - i = (j - (i + 1)) + 1 := by omega
            rw [this]
            simpa [resolvedNameAt] using hr
        · rintro ⟨hij, hr⟩
          by_cases hji : j = i
          · subst hji
            simp [resolvedNameAt, hf, hc, Nat.sub_self] at hr
            exact Or.inl ⟨hr.symm, rfl⟩
          · refine Or.inr ⟨by omega, ?_⟩
            have : j - i = (j - (i + 1)) + 1 := by omega
            rw [this] at hr
            simpa [resolvedNameAt] using hr
    · rw [show wildPairs key fm i (f :: rest) = wildPairs key fm (i + 1) rest by
        simp [wildPairs, hf]]
      rw [htail]
      constructor
      · rintro ⟨hij, hr⟩
        refine ⟨by omega, ?_⟩
        have : j - i = (j - (i + 1)) + 1 := by omega
        rw [this]
        simpa [resolvedNameAt] using hr
      · rintro ⟨hij, hr⟩
        have hji : j ≠ i := by
          intro hji
          subst hji
          simp [resolvedNameAt, hf, Nat.sub_self] at hr
        refine ⟨by omega, ?_⟩
        have : j - i = (j - (i + 1)) + 1 := by omega
        rw [this] at hr
        simpa [resolvedNameAt] using hr

theorem wildPairs_snd_ge (key : String) (fm : Option (String → String)) :
    ∀ (fs : List Field) (i : Nat), ∀ p ∈ wildPairs key fm i fs, i ≤ p.2 := by
  intro fs
  induction fs with
  | nil => simp [wildPairs]
  | cons f rest ih =>
    intro i p hp
    by_cases hf : f.exported
    · cases hc : resolveCol key fm f with
      | none =>
        simp only [wildPairs, hf, hc, if_true] at hp
        exact le_trans (Nat.le_succ i) (ih (i + 1) p hp)
      | some c =>
        simp only [wildPairs, hf, hc, if_true] at hp
        rcases List.mem_cons.mp hp with rfl | hp
        · exact le_refl i
        · exact le_trans (Nat.le_succ i) (ih (i + 1) p hp)
    · simp only [wildPairs, hf, if_false] at hp
      exact le_trans (Nat.le_succ i) (ih (i + 1) p hp)

theorem wildPairs_snd_sorted (key : String) (fm : Option (String → String)) :
    ∀ (fs : List Field) (i : Nat),
      (wildPairs key fm i fs).Pairwise (fun p q => p.2 < q.2) := by
  intro fs
  induction fs with
  | nil => simp [wildPairs]
  | cons f rest ih =>
    intro i
    by_cases hf : f.exported
    · cases hc : resolveCol key fm f with
      | none => simpa [wildPairs, hf, hc] using ih (i + 1)
      | some c =>
        simp only [wildPairs, hf, hc, if_true]
        refine List.Pairwise.cons ?_ (ih (i + 1))
        intro q hq
        have := wildPairs_snd_ge key fm rest (i + 1) q hq
        omega
    · simpa [wildPairs, hf] using ih (i + 1)

theorem selectPairs_perm (wp : List (String × Nat)) :
    ∀ (w1 w2 : List String), List.Perm w1 w2 →
      selectPairs w1 wp = selectPairs w2 wp := by
  induction wp with
  | nil => intro w1 w2 _; rfl
  | cons p rest ih =>
    intro w1 w2 hperm
    by_cases hw : p.1 ∈ w1
    · have hw2 : p.1 ∈ w2 := hperm.mem_iff.mp hw
      simp only [selectPairs, hw, hw2, if_true]
      rw [ih (w1.erase p.1) (w2.erase p.1) (hperm.erase p.1)]
    · have hw2 : p.1 ∉ w2 := fun h => hw (hperm.mem_iff.mpr h)
      simp only [selectPairs, hw, hw2, if_false]
      exact ih w1 w2 hperm

theorem selectPairs_sub (wp : List (String × Nat)) :
    ∀ (w : List String), ∀ p ∈ selectPairs w wp, p ∈ wp ∧ p.1 ∈ w := by
  induction wp with
  | nil => simp [selectPairs]
  | cons q rest ih =>
    intro w p hp
    by_cases hw : q.1 ∈ w
    · simp only [selectPairs, hw, if_true] at hp
      rcases List.mem_cons.mp hp with rfl | hp
      · exact ⟨List.mem_cons_self _ _, hw⟩
      · obtain ⟨h1, h2⟩ := ih (w.erase q.1) p hp
        exact ⟨List.mem_cons_of_mem _ h1, List.mem_of_mem_erase h2⟩
    · simp only [selectPairs, hw, if_false] at hp
      obtain ⟨h1, h2⟩ := ih w p hp
      exact ⟨List.mem_cons_of_mem _ h1, h2⟩

theorem selectPairs_fst_nodup (wp : List (String × Nat)) :
    ∀ (w : List String), w.Nodup → ((selectPairs w wp).map Prod.fst).Nodup := by
  induction wp with
  | nil => simp [selectPairs]
  | cons q rest ih =>
    intro w hw
    by_cases hq : q.1 ∈ w
    · simp only [selectPairs, hq, if_true, List.map_cons]
      refine List.Pairwise.cons ?_ (ih (w.erase q.1) (hw.erase q.1))
      intro c hc
      obtain ⟨p, hp, rfl⟩ := List.mem_map.mp hc
      obtain ⟨_, hmem⟩ := selectPairs_sub rest (w.erase q.1) p hp
      intro hqc
      rw [← hqc] at hmem
      exact hw.not_mem_erase hmem
    · simp only [selectPairs, hq, if_false]
      exact ih w hw

theorem selectPairs_first (wp : List (String × Nat)) :
    ∀ (w : List String), w.Nodup → wp.Pairwise (fun p q => p.2 < q.2) →
      ∀ p ∈ selectPairs w wp, ∀ q ∈ wp, q.2 < p.2 → q.1 ≠ p.1 := by
  induction wp with
  | nil => simp [selectPairs]
  | cons r rest ih =>
    intro w hnd hpw p hp q hq hlt
    have hr : List.Pairwise (fun p q => p.2 < q.2) rest := hpw.tail
    by_cases hw : r.1 ∈ w
    · simp only [selectPairs, hw, if_true] at hp
      rcases List.mem_cons.mp hp with rfl | hp
      · rcases List.mem_cons.mp hq with rfl | hq
        · omega
        · have := List.rel_of_pairwise_cons hpw hq
          omega
      · rcases List.mem_cons.mp hq with rfl | hq
        · obtain ⟨_, hmem⟩ := selectPairs_sub rest (w.erase q.1) p hp
          intro hqp
          rw [hqp] at hmem
          exact hnd.not_mem_erase hmem
        · exact ih (w.erase r.1) (hnd.erase r.1) hr p hp q hq hlt
    · simp only [selectPairs, hw, if_false] at hp
      rcases List.mem_cons.mp hq with rfl | hq
      · obtain ⟨_, hmem⟩ := selectPairs_sub rest w p hp
        intro hqp
        rw [← hqp] at hmem
        exact hw hmem
      · exact ih w hnd hr p hp q hq hlt

theorem selectPairs_complete (wp : List (String × Nat)) :
    ∀ (w : List String), wp.Pairwise (fun p q => p.2 < q.2) →
      ∀ p ∈ wp, p.1 ∈ w → (∀ q ∈ wp, q.2 < p.2 → q.1 ≠ p.1) →
        p ∈ selectPairs w wp := by
  induction wp with
  | nil => simp
  | cons r rest ih =>
    intro w hpw p hp hpin hfirst
    have hr : List.Pairwise (fun p q => p.2 < q.2) rest := hpw.tail
    rcases List.mem_cons.mp hp with rfl | hp
    · simp [selectPairs, hpin]
    · by_cases hw : r.1 ∈ w
      · simp only [selectPairs, hw, if_true]
        refine List.mem_cons_of_mem _ (ih (w.erase r.1) hr p hp ?_ ?_)
        · have hlt : r.2 < p.2 := List.rel_of_pairwise_cons hpw hp
          have hne : r.1 ≠ p.1 := hfirst r (List.mem_cons_self _ _) hlt
          exact List.mem_erase_of_ne (Ne.symm hne) |>.mpr hpin
        · intro q hq hlt
          exact hfirst q (List.mem_cons_of_mem _ hq) hlt
      · simp only [selectPairs, hw, if_false]
        exact ih w hr p hp hpin (fun q hq hlt => hfirst q (List.mem_cons_of_mem _ hq) hlt)

/-! ### Characterizing the resolver loop -/

theorem index_isSome_decide (l : List String) (a : String) :
    (index l a).isSome = decide (a ∈ l) := by
  by_cases h : a ∈ l
  · simp [h, (index_isSome l a).mpr h]
  · have : index l a = none := (index_eq_none l a).mpr h
    simp [h, this]

theorem wildNames_cons (key : String) (fm : Option (String → String))
    (f : Field) (rest : List Field) :
    wildNames key fm (f :: rest) =
      (if f.exported then resolveCol key fm f else none).toList ++ wildNames key fm rest := by
  by_cases hf : f.exported
  · cases hc : resolveCol key fm f <;> simp [wildNames, List.filterMap_cons, hf, hc]
  · simp [wildNames, List.filterMap_cons, hf]

/-- Under a wildcard request the loop ignores the working copy and appends
every candidate, failing at the first duplicated candidate name. -/
theorem buildLoop_joker (key : String) (fm : Option (String → String)) :
    ∀ (fs : List Field) (i : Nat) (work cols : List String) (flds : List Nat),
      buildLoop key fm true fs i work cols flds =
        match firstDupAux cols (wildNames key fm fs) with
        | some c => .error ("Field " ++ c ++ " is mapped more than once")
        | none => .ok (work, cols ++ wildNames key fm fs,
            flds ++ (wildPairs key fm i fs).map Prod.snd) := by
  intro fs
  induction fs with
  | nil =>
    intro i work cols flds
    simp [buildLoop, wildNames, wildPairs, firstDupAux]
  | cons f rest ih =>
    intro i work cols flds
    by_cases hf : f.exported
    · cases hc : resolveCol key fm f with
      | none =>
        simp only [buildLoop, hf, if_true, hc]
        rw [ih (i + 1) work cols flds]
        simp [wildNames_cons, hf, hc, wildPairs]
      | some c =>
        by_cases hdup : c ∈ cols
        · have hd : decide (c ∈ cols) = true := by simp [hdup]
          simp only [buildLoop, hf, if_true, hc, index_isSome_decide, hd, if_true]
          simp [wildNames_cons, hf, hc, firstDupAux, hdup]
        · have hd : decide (c ∈ cols) = false := by simp [hdup]
          simp only [buildLoop, hf, if_true, hc, index_isSome_decide, hd]
          rw [if_neg (by simp)]
          rw [ih (i + 1) work (cols ++ [c]) (flds ++ [i])]
          rw [wildNames_cons key fm f rest]
          simp only [hf, if_true, hc, Option.toList_some, List.singleton_append]
          rw [show firstDupAux cols (c :: wildNames key fm rest) =
            firstDupAux (cols ++ [c]) (wildNames key fm rest) by
              simp [firstDupAux, hdup]]
          cases hfd : firstDupAux (cols ++ [c]) (wildNames key fm rest) with
          | some d => simp
          | none => simp [wildPairs, hf, hc, List.append_assoc]
    · simp only [buildLoop, hf, if_false]
      rw [ih (i + 1) work cols flds]
      simp [wildNames_cons, hf, wildPairs]

/-- In non-wildcard mode, as long as the accumulated columns and the working
copy are jointly duplicate-free, the loop cannot raise the duplicate-column
panic: it returns the pairs kept by the requested-column filter, and the
final working copy holds exactly the requested names no candidate resolves
to. -/
theorem buildLoop_nojoker (key : String) (fm : Option (String → String)) :
    ∀ (fs : List Field) (i : Nat) (work cols : List String) (flds : List Nat),
      (cols ++ work).Nodup →
      ∃ w', buildLoop key fm false fs i work cols flds =
          .ok (w', cols ++ (selectPairs work (wildPairs key fm i fs)).map Prod.fst,
               flds ++ (selectPairs work (wildPairs key fm i fs)).map Prod.snd)
        ∧ w'.Nodup
        ∧ (∀ c, c ∈ w' ↔ (c ∈ work ∧ ∀ p ∈ wildPairs key fm i fs, p.1 ≠ c)) := by
  intro fs
  induction fs with
  | nil =>
    intro i work cols flds hnd
    refine ⟨work, ?_, hnd.of_append_right, ?_⟩
    · simp [buildLoop, wildPairs, selectPairs]
    · simp [wildPairs]
  | cons f rest ih =>
    intro i work cols flds hnd
    by_cases hf : f.exported
    · cases hc : resolveCol key fm f with
      | none =>
        obtain ⟨w', h1, h2, h3⟩ := ih (i + 1) work cols flds hnd
        refine ⟨w', ?_, h2, ?_⟩
        · simp only [buildLoop, hf, if_true, hc]
          rw [show wildPairs key fm i (f :: rest) = wildPairs key fm (i + 1) rest by
            simp [wildPairs, hf, hc]]
          exact h1
        · rw [show wildPairs key fm i (f :: rest) = wildPairs key fm (i + 1) rest by
            simp [wildPairs, hf, hc]]
          exact h3
      | some c =>
        have hwp : wildPairs key fm i (f :: rest) =
            (c, i) :: wildPairs key fm (i + 1) rest := by simp [wildPairs, hf, hc]
        cases hidx : index work c with
        | none =>
          have hcw : c ∉ work := (index_eq_none work c).mp hidx
          obtain ⟨w', h1, h2, h3⟩ := ih (i + 1) work cols flds hnd
          have hsel : selectPairs work (wildPairs key fm i (f :: rest)) =
              selectPairs work (wildPairs key fm (i + 1) rest) := by
            rw [hwp]; simp [selectPairs, hcw]
          refine ⟨w', ?_, h2, ?_⟩
          · simp only [buildLoop, hf, if_true, hc, Bool.false_eq_true, if_false, hidx]
            rw [hsel]
            exact h1
          · intro x
            rw [h3 x, hwp]
            constructor
            · rintro ⟨hxw, hall⟩
              refine ⟨hxw, ?_⟩
              intro p hp
              rcases List.mem_cons.mp hp with rfl | hp
              · intro hcx
                apply hcw
                have hcex : c = x := hcx
                rw [hcex]
                exact hxw
              · exact hall p hp
            · rintro ⟨hxw, hall⟩
              exact ⟨hxw, fun p hp => hall p (List.mem_cons_of_mem _ hp)⟩
        | some k =>
          have hcw : c ∈ work := by
            rw [← index_isSome work c]
            simp [hidx]
          have hccols : c ∉ cols := fun hmem =>
            (List.disjoint_of_nodup_append hnd) hmem hcw
          have hd : decide (c ∈ cols) = false := by simp [hccols]
          have hpermc : List.Perm (c :: swapRemove work k) work :=
            swapRemove_perm_erase work c k hidx hcw
          have hndwork : work.Nodup := hnd.of_append_right
          have hperm2 : List.Perm ((cols ++ [c]) ++ swapRemove work k) (cols ++ work) := by
            rw [List.append_assoc, List.singleton_append]
            exact List.Perm.append_left cols hpermc
          have hnd' : ((cols ++ [c]) ++ swapRemove work k).Nodup :=
            (hperm2.nodup_iff).mpr hnd
          obtain ⟨w', h1, h2, h3⟩ := ih (i + 1) (swapRemove work k) (cols ++ [c])
            (flds ++ [i]) hnd'
          have hselp : selectPairs (swapRemove work k) (wildPairs key fm (i + 1) rest) =
              selectPairs (work.erase c) (wildPairs key fm (i + 1) rest) :=
            selectPairs_perm _ _ _ (swapRemove_perm work c k hidx)
          have hsel : selectPairs work (wildPairs key fm i (f :: rest)) =
              (c, i) :: selectPairs (work.erase c) (wildPairs key fm (i + 1) rest) := by
            rw [hwp]; simp [selectPairs, hcw]
          refine ⟨w', ?_, h2, ?_⟩
          · simp only [buildLoop, hf, if_true, hc, Bool.false_eq_true, if_false, hidx,
              index_isSome_decide, hd]
            rw [h1, hselp, hsel]
            simp [List.append_assoc]
          · intro x
            rw [h3 x]
            have hswx : x ∈ swapRemove work k ↔ (x ≠ c ∧ x ∈ work) := by
              rw [(swapRemove_perm work c k hidx).mem_iff]
              exact hndwork.mem_erase_iff
            rw [hswx, hwp]
            constructor
            · rintro ⟨⟨hxc, hxw⟩, hall⟩
              refine ⟨hxw, ?_⟩
              intro p hp
              rcases List.mem_cons.mp hp with rfl | hp
              · exact fun h => hxc h.symm
              · exact hall p hp
            · rintro ⟨hxw, hall⟩
              refine ⟨⟨?_, hxw⟩, fun p hp => hall p (List.mem_cons_of_mem _ hp)⟩
              intro hxc
              exact hall (c, i) (List.mem_cons_self _ _) (by simp [hxc])
    · have hwp : wildPairs key fm i (f :: rest) = wildPairs key fm (i + 1) rest := by
        simp [wildPairs, hf]
      obtain ⟨w', h1, h2, h3⟩ := ih (i + 1) work cols flds hnd
      refine ⟨w', ?_, h2, ?_⟩
      · simp only [buildLoop, hf, if_false]
        rw [hwp]
        exact h1
      · rw [hwp]
        exact h3

/-- Whenever the loop returns (in either mode, with any request), the
accumulated columns stay duplicate-free, columns and field positions stay
aligned, and every appended field position comes from a candidate pair. -/
theorem buildLoop_ok_inv (key : String) (fm : Option (String → String)) (jk : Bool) :
    ∀ (fs : List Field) (i : Nat) (work cols : List String) (flds : List Nat)
      (w' cols' : List String) (flds' : List Nat),
      buildLoop key fm jk fs i work cols flds = .ok (w', cols', flds') →
      (cols.Nodup → cols'.Nodup)
      ∧ (flds.length = cols.length → flds'.length = cols'.length)
      ∧ (∀ j ∈ flds', j ∈ flds ∨ ∃ c, (c, j) ∈ wildPairs key fm i fs) := by
  intro fs
  induction fs with
  | nil =>
    intro i work cols flds w' cols' flds' h
    simp only [buildLoop, Except.ok.injEq, Prod.mk.injEq] at h
    obtain ⟨_, rfl, rfl⟩ := h
    exact ⟨id, id, fun j hj => Or.inl hj⟩
  | cons f rest ih =>
    intro i work cols flds w' cols' flds' h
    by_cases hf : f.exported
    · cases hc : resolveCol key fm f with
      | none =>
        simp only [buildLoop, hf, if_true, hc] at h
        obtain ⟨ha, hb, hcc⟩ := ih (i + 1) work cols flds w' cols' flds' h
        refine ⟨ha, hb, ?_⟩
        intro j hj
        rcases hcc j hj with hj' | ⟨c, hcj⟩
        · exact Or.inl hj'
        · exact Or.inr ⟨c, by simp [wildPairs, hf, hc, hcj]⟩
      | some c =>
        have hwp : wildPairs key fm i (f :: rest) =
            (c, i) :: wildPairs key fm (i + 1) rest := by simp [wildPairs, hf, hc]
        have step : ∀ work0, buildLoop key fm jk rest (i + 1) work0
              (cols ++ [c]) (flds ++ [i]) = .ok (w', cols', flds') →
            ¬ c ∈ cols →
            (cols.Nodup → cols'.Nodup)
            ∧ (flds.length = cols.length → flds'.length = cols'.length)
            ∧ (∀ j ∈ flds', j ∈ flds ∨ ∃ d, (d, j) ∈ wildPairs key fm i (f :: rest)) := by
          intro work0 hrec hnotc
          obtain ⟨ha, hb, hcc⟩ := ih (i + 1) work0 (cols ++ [c]) (flds ++ [i])
            w' cols' flds' hrec
          refine ⟨?_, ?_, ?_⟩
          · intro hnd
            apply ha
            simp [List.nodup_append, hnd, hnotc]
          · intro hlen
            apply hb
            simp [hlen]
          · intro j hj
            rcases hcc j hj with hj' | ⟨d, hdj⟩
            · rcases List.mem_append.mp hj' with hj'' | hj''
              · exact Or.inl hj''
              · refine Or.inr ⟨c, ?_⟩
                rw [hwp]
                have : j = i := by simpa using hj''
                rw [this]
                exact List.mem_cons_self _ _
            · refine Or.inr ⟨d, ?_⟩
              rw [hwp]
              exact List.mem_cons_of_mem _ hdj
        by_cases hjk : jk = true
        · subst hjk
          by_cases hdup : c ∈ cols
          · have hd : decide (c ∈ cols) = true := by simp [hdup]
            simp only [buildLoop, hf, if_true, hc, index_isSome_decide, hd] at h
            exact absurd h (by simp)
          · have hd : decide (c ∈ cols) = false := by simp [hdup]
            simp only [buildLoop, hf, if_true, hc, index_isSome_decide, hd,
              Bool.false_eq_true, if_false] at h
            exact step work h hdup
        · have hjkf : jk = false := by
            cases jk
            · rfl
            · exact absurd rfl hjk
          subst hjkf
          cases hidx : index work c with
          | none =>
            simp only [buildLoop, hf, if_true, hc, Bool.false_eq_true, if_false,
              hidx] at h
            obtain ⟨ha, hb, hcc⟩ := ih (i + 1) work cols flds w' cols' flds' h
            refine ⟨ha, hb, ?_⟩
            intro j hj
            rcases hcc j hj with hj' | ⟨d, hdj⟩
            · exact Or.inl hj'
            · refine Or.inr ⟨d, ?_⟩
              rw [hwp]
              exact List.mem_cons_of_mem _ hdj
          | some k =>
            by_cases hdup : c ∈ cols
            · have hd : decide (c ∈ cols) = true := by simp [hdup]
              simp only [buildLoop, hf, if_true, hc, Bool.false_eq_true, if_false,
                hidx, index_isSome_decide, hd] at h
              exact absurd h (by simp)
            · have hd : decide (c ∈ cols) = false := by simp [hdup]
              simp only [buildLoop, hf, if_true, hc, Bool.false_eq_true, if_false,
                hidx, index_isSome_decide, hd] at h
              exact step (swapRemove work k) h hdup
    · simp only [buildLoop, hf, if_false] at h
      obtain ⟨ha, hb, hcc⟩ := ih (i + 1) work cols flds w' cols' flds' h
      refine ⟨ha, hb, ?_⟩
      intro j hj
      rcases hcc j hj with hj' | ⟨c, hcj⟩
      · exact Or.inl hj'
      · exact Or.inr ⟨c, by simp [wildPairs, hf, hcj]⟩

/-- Unfolding of a successful construction: the target was a struct, the
loop succeeded, the missing-columns check passed, and the mapper's parts are
the loop's outputs together with the default configuration. -/
theorem MapperWithKey_ok_elim (t : GoType) (key : String) (cs : List String)
    (m : mapper) (hok : MapperWithKey t key cs = .ok m) :
    ∃ fs w, t = GoType.mk_struct fs ∧ m.target = t
      ∧ m.Comma = ',' ∧ m.Mark = '?' ∧ m.FieldMapper = some goToLower
      ∧ buildLoop key (some goToLower) (joker cs) fs 0 cs [] [] = .ok (w, m.cols, m.fields)
      ∧ (joker cs = true ∨ w = [])
      ∧ key ≠ "" ∧ cs ≠ [] := by
  unfold MapperWithKey at hok
  by_cases hk : key = ""
  · rw [if_pos hk] at hok
    exact absurd hok (by simp)
  · rw [if_neg hk] at hok
    by_cases hdk : derefKind t ≠ Kind.struct
    · rw [if_pos hdk] at hok
      exact absurd hok (by simp)
    · rw [if_neg hdk] at hok
      by_cases hcs : cs = []
      · rw [if_pos hcs] at hok
        exact absurd hok (by simp)
      · rw [if_neg hcs] at hok
        cases t with
        | ptr u => exact absurd hok (by simp [fieldsOf])
        | prim n => exact absurd hok (by simp [fieldsOf])
        | mk_struct fs =>
          simp only [fieldsOf] at hok
          cases hbl : buildLoop key (some goToLower) (joker cs) fs 0 cs [] [] with
          | error e => rw [hbl] at hok; exact absurd hok (by simp)
          | ok res =>
            obtain ⟨w, cols, flds⟩ := res
            rw [hbl] at hok
            dsimp only at hok
            by_cases hmiss : (!joker cs && !w.isEmpty) = true
            · rw [if_pos hmiss] at hok
              exact absurd hok (by simp)
            · rw [if_neg hmiss] at hok
              have hm := (Except.ok.injEq _ _).mp hok.symm
              refine ⟨fs, w, rfl, ?_, ?_, ?_, ?_, ?_, ?_, hk, hcs⟩
              · rw [hm]
              · rw [hm]
              · rw [hm]
              · rw [hm]
              · rw [hbl, hm]
              · cases hjk : joker cs
                · have h := hmiss
                  simp [hjk] at h
                  exact Or.inr h
                · exact Or.inl rfl

/-- The `Subset` loop is the filter of the zipped (column, field) pairs by
membership of the column in the requested list. -/
theorem subsetLoop_eq (req : List String) :
    ∀ (cols : List String) (fls : List Nat), fls.length = cols.length →
      subsetLoop req cols fls =
        (((cols.zip fls).filter (fun p => (index req p.1).isSome)).map Prod.fst,
         ((cols.zip fls).filter (fun p => (index req p.1).isSome)).map Prod.snd) := by
  intro cols
  induction cols with
  | nil => intro fls _; simp [subsetLoop]
  | cons c cs ih =>
    intro fls hlen
    cases fls with
    | nil => simp at hlen
    | cons f fs =>
      have hlen' : fs.length = cs.length := by simpa using hlen
      by_cases hin : (index req c).isSome = true
      · simp [subsetLoop, hin, ih fs hlen', List.filter_cons]
      · have : (index req c).isSome = false := by
          cases hh : (index req c).isSome
          · rfl
          · exact absurd hh hin
        simp [subsetLoop, hin, ih fs hlen', List.filter_cons, this]

theorem joker_ne_nil (cs : List String) (h : joker cs = true) : cs ≠ [] := by
  intro hnil
  subst hnil
  simp [joker] at h

/-- Reduction: `MapperWithKey` on a struct target with valid key and a non-empty
request reduces to the loop followed by the missing-columns check. -/
theorem MapperWithKey_struct_eq (fs : List Field) (key : String) (cs : List String)
    (hk : key ≠ "") (hcs : cs ≠ []) :
    MapperWithKey (GoType.mk_struct fs) key cs =
      match buildLoop key (some goToLower) (joker cs) fs 0 cs [] [] with
      | .error e => .error e
      | .ok (w, cols, flds) =>
        if !joker cs && !w.isEmpty then
          .error ("Some fields are missing from target: " ++ String.intercalate "," w)
        else .ok { fields := flds, cols := cols, target := GoType.mk_struct fs,
                   Comma := ',', Mark := '?', FieldMapper := some goToLower } := by
  unfold MapperWithKey
  rw [if_neg hk, if_neg (by simp [derefKind, kindOf]), if_neg hcs]
  rfl


theorem resolvedNameAt_ignored (key : String) (fm : Option (String → String))
    (fs : List Field) (i : Nat) (f : Field) (hif : fs[i]? = some f)
    (htag : tagGet f key ≠ "")
    (hsuf : goHasSuffix (tagGet f key) ",ignore" = true) :
    resolvedNameAt key fm fs i = none := by
  unfold resolvedNameAt
  rw [hif]
  by_cases hf : f.exported
  · simp only [hf, if_true]
    unfold resolveCol
    simp [htag, hsuf]
  · simp [hf]

/-! ### Claim theorems -/

/-- C1: for every struct type built with a wildcard request, `Columns()`
returns exactly the resolved names of the exported fields, in declaration
order, the resolved name being the non-empty tag value under the key, and
otherwise the lowercased declared name (the default FieldMapper); a field
whose tag value ends in `,ignore` never appears, under wildcard or explicit
requests; and a non-exported field never appears, under wildcard or
explicit requests. -/
theorem mapper_C1 (fs : List Field) (key : String) (cs : List String) (m : mapper) :
    (joker cs = true → MapperWithKey (GoType.mk_struct fs) key cs = .ok m →
      Columns m = wildNames key (some goToLower) fs)
    ∧ (MapperWithKey (GoType.mk_struct fs) key cs = .ok m →
      ∀ i f, fs[i]? = some f →
        tagGet f key ≠ "" →
        goHasSuffix (tagGet f key) ",ignore" = true →
        i ∉ m.fields)
    ∧ (MapperWithKey (GoType.mk_struct fs) key cs = .ok m →
      ∀ i f, fs[i]? = some f → f.exported = false → i ∉ m.fields) := by
  refine ⟨?_, ?_, ?_⟩
  · intro hjk hok
    obtain ⟨fs1, w, hts, _, _, _, _, hbl, _, _, _⟩ :=
      MapperWithKey_ok_elim _ _ _ _ hok
    injection hts with hfs
    subst hfs
    rw [hjk, buildLoop_joker] at hbl
    cases hfd : firstDupAux [] (wildNames key (some goToLower) fs) with
    | some c =>
      rw [hfd] at hbl
      exact absurd hbl (by simp)
    | none =>
      rw [hfd] at hbl
      simp only [List.nil_append, Except.ok.injEq, Prod.mk.injEq] at hbl
      exact hbl.2.1.symm
  · intro hok i f hif htag hsuf hmem
    obtain ⟨fs1, w, hts, _, _, _, _, hbl, _, _, _⟩ :=
      MapperWithKey_ok_elim _ _ _ _ hok
    injection hts with hfs
    subst hfs
    have hinv := buildLoop_ok_inv key (some goToLower) (joker cs) fs 0 cs [] []
      w m.cols m.fields hbl
    rcases hinv.2.2 i hmem with h0 | ⟨c, hcj⟩
    · simp at h0
    · obtain ⟨_, hr⟩ := (wildPairs_mem key (some goToLower) fs 0 c i).mp hcj
      rw [Nat.sub_zero] at hr
      rw [resolvedNameAt_ignored key (some goToLower) fs i f hif htag hsuf] at hr
      exact absurd hr (by simp)
  · intro hok i f hif hexp hmem
    obtain ⟨fs1, w, hts, _, _, _, _, hbl, _, _, _⟩ :=
      MapperWithKey_ok_elim _ _ _ _ hok
    injection hts with hfs
    subst hfs
    have hinv := buildLoop_ok_inv key (some goToLower) (joker cs) fs 0 cs [] []
      w m.cols m.fields hbl
    rcases hinv.2.2 i hmem with h0 | ⟨c, hcj⟩
    · simp at h0
    · obtain ⟨_, hr⟩ := (wildPairs_mem key (some goToLower) fs 0 c i).mp hcj
      rw [Nat.sub_zero] at hr
      unfold resolvedNameAt at hr
      rw [hif] at hr
      dsimp only at hr
      rw [if_neg (by simp [hexp])] at hr
      exact absurd hr (by simp)



/-- Witness for C1 at the struct `{A string; B string mapper:"x,ignore";
b string}` with a wildcard request: only `A` is mapped; the ignore-tagged
field 1 and the non-exported field 2 are excluded. -/
theorem mapper_C1_witness :
    Columns mW1 = wildNames "mapper" (some goToLower) fsW1
    ∧ 1 ∉ mW1.fields ∧ 2 ∉ mW1.fields := by
  have h := mapper_C1 fsW1 "mapper" ["*"] mW1
  exact ⟨h.1 rfl rfl,
    h.2.1 rfl 1 ⟨"B", true, [("mapper", "x,ignore")]⟩ rfl (by decide) (by decide),
    h.2.2 rfl 2 ⟨"b", false, []⟩ rfl rfl⟩

/-- C2: when two different fields resolve to the same column name and both
pass the requested-column filter, construction fails with the message
`Field <col> is mapped more than once`: under a wildcard request this
happens whenever the resolved candidate names contain a duplicate (`c`
being the first name repeating an earlier one), and it also fires in
non-wildcard mode when the requested list repeats a name, e.g. building
`{A string mapper:"b"; B string}` with request `b, b`. -/
theorem mapper_C2 (fs : List Field) (key : String) (cs : List String) (c : String) :
    (key ≠ "" → joker cs = true →
      firstDup (wildNames key (some goToLower) fs) = some c →
      MapperWithKey (GoType.mk_struct fs) key cs =
        .error ("Field " ++ c ++ " is mapped more than once"))
    ∧ MapperWithKey
        (GoType.mk_struct [⟨"A", true, [("mapper", "b")]⟩, ⟨"B", true, []⟩])
        "mapper" ["b", "b"] = .error "Field b is mapped more than once" := by
  constructor
  · intro hk hjk hfd
    rw [MapperWithKey_struct_eq fs key cs hk (joker_ne_nil cs hjk)]
    rw [hjk, buildLoop_joker]
    unfold firstDup at hfd
    rw [hfd]
  · rfl

/-- Witness for C2 at the struct `{A string mapper:"b"; B string}` with a
wildcard request. -/
theorem mapper_C2_witness :
    MapperWithKey (GoType.mk_struct [⟨"A", true, [("mapper", "b")]⟩, ⟨"B", true, []⟩])
      "mapper" ["*"] = .error "Field b is mapped more than once" :=
  (mapper_C2 [⟨"A", true, [("mapper", "b")]⟩, ⟨"B", true, []⟩] "mapper" ["*"] "b").1
    (by decide) rfl rfl



/-- The three-way case split of `Subset`, with the kept entries described
as a filter of the zipped (column, field) pairs. -/
theorem Subset_eq (m : mapper) (rs : List String)
    (hlen : m.fields.length = m.cols.length) :
    Subset m rs =
      if rs = [] then { m with cols := [], fields := [] }
      else if joker rs then m
      else { m with
        cols := ((m.cols.zip m.fields).filter
          (fun p => (index rs p.1).isSome)).map Prod.fst,
        fields := ((m.cols.zip m.fields).filter
          (fun p => (index rs p.1).isSome)).map Prod.snd } := by
  unfold Subset
  by_cases h1 : rs = []
  · simp [h1]
  · rw [if_neg h1, if_neg h1]
    by_cases h2 : joker rs
    · simp [h2]
    · have h2f : joker rs = false := by
        cases hh : joker rs
        · rfl
        · exact absurd hh h2
      rw [if_neg (by simp [h2f]), if_neg (by simp [h2f])]
      rw [subsetLoop_eq rs m.cols m.fields hlen]

/-- C7: every Correspondence produced by construction satisfies the
invariant, and `Subset` preserves it. -/
theorem mapper_C7 (t : GoType) (key : String) (cs rs : List String) (m : mapper) :
    (MapperWithKey t key cs = .ok m → mapperInv m)
    ∧ (mapperInv m → mapperInv (Subset m rs)) := by
  constructor
  · intro hok
    obtain ⟨fs, w, hts, htar, _, _, _, hbl, _, _, _⟩ :=
      MapperWithKey_ok_elim _ _ _ _ hok
    have hinv := buildLoop_ok_inv key (some goToLower) (joker cs) fs 0 cs [] []
      w m.cols m.fields hbl
    refine ⟨(hinv.2.1 rfl).symm, hinv.1 List.nodup_nil, ?_⟩
    intro i hi
    rcases hinv.2.2 i hi with h0 | ⟨c, hcj⟩
    · simp at h0
    · obtain ⟨_, hr⟩ := (wildPairs_mem key (some goToLower) fs 0 c i).mp hcj
      rw [Nat.sub_zero] at hr
      unfold resolvedNameAt at hr
      cases hgf : fs[i]? with
      | none => rw [hgf] at hr; exact absurd hr (by simp)
      | some f =>
        rw [hgf] at hr
        dsimp only at hr
        by_cases hfe : f.exported
        · rw [htar, hts]
          simp [exportedAtB, hgf, hfe]
        · rw [if_neg (by simp [hfe])] at hr
          exact absurd hr (by simp)
  · intro hi
    have hlen : m.fields.length = m.cols.length := hi.1.symm
    rw [Subset_eq m rs hlen]
    by_cases h1 : rs = []
    · rw [if_pos h1]
      exact ⟨rfl, List.nodup_nil, by simp⟩
    · rw [if_neg h1]
      by_cases h2 : joker rs
      · rw [if_pos h2]
        exact hi
      · rw [if_neg h2]
        have hle : m.cols.length ≤ m.fields.length := le_of_eq hlen.symm
        have hfst : List.map Prod.fst (m.cols.zip m.fields) = m.cols :=
          List.map_fst_zip m.cols m.fields hle
        refine ⟨by simp, ?_, ?_⟩
        · have hsub : (((m.cols.zip m.fields).filter
              (fun p => (index rs p.1).isSome)).map Prod.fst).Sublist
              ((m.cols.zip m.fields).map Prod.fst) :=
            (List.filter_sublist _).map Prod.fst
          rw [hfst] at hsub
          exact hsub.nodup hi.2.1
        · intro i hmem
          simp only [List.mem_map] at hmem
          obtain ⟨p, hp, rfl⟩ := hmem
          have hpz : p ∈ m.cols.zip m.fields :=
            List.Sublist.mem hp (List.filter_sublist _)
          have : p.2 ∈ m.fields := by
            obtain ⟨a, b⟩ := p
            exact (List.of_mem_zip hpz).2
          exact hi.2.2 p.2 this



/-- Witness for C7: the wildcard build on `{A string; B string}` satisfies
the invariant, and so does its subset on `a`. -/
theorem mapper_C7_witness : mapperInv mW7 ∧ mapperInv (Subset mW7 ["a"]) := by
  have h := mapper_C7 (GoType.mk_struct fsW7) "mapper" ["*"] ["a"] mW7
  exact ⟨h.1 rfl, h.2 (h.1 rfl)⟩

/-- C4: `Subset` with an empty request yields the empty Correspondence with
the parent's configuration; a request containing the wildcard yields the
parent itself; otherwise the result keeps exactly the parent's (column,
field) pairs whose column occurs in the request, in the parent's order. -/
theorem mapper_C4 (m : mapper) (rs : List String)
    (hlen : m.fields.length = m.cols.length) :
    Subset m rs =
      if rs = [] then { m with cols := [], fields := [] }
      else if joker rs then m
      else { m with
        cols := ((m.cols.zip m.fields).filter
          (fun p => (index rs p.1).isSome)).map Prod.fst,
        fields := ((m.cols.zip m.fields).filter
          (fun p => (index rs p.1).isSome)).map Prod.snd } :=
  Subset_eq m rs hlen


/-- Witness for C4 at the parent `[a,b,c,d]` with request `c, a`. -/
theorem mapper_C4_witness :
    mW4.fields.length = mW4.cols.length
    ∧ Subset mW4 ["c", "a"] =
      (if (["c", "a"] : List String) = [] then { mW4 with cols := [], fields := [] }
      else if joker ["c", "a"] then mW4
      else { mW4 with
        cols := ((mW4.cols.zip mW4.fields).filter
          (fun p => (index ["c", "a"] p.1).isSome)).map Prod.fst,
        fields := ((mW4.cols.zip mW4.fields).filter
          (fun p => (index ["c", "a"] p.1).isSome)).map Prod.snd }) :=
  ⟨rfl, mapper_C4 mW4 ["c", "a"] rfl⟩

theorem not_mem_wildNames_iff (key : String) (fm : Option (String → String))
    (fs : List Field) (c : String) :
    c ∉ wildNames key fm fs ↔ ∀ p ∈ wildPairs key fm 0 fs, p.1 ≠ c := by
  rw [← wildPairs_map_fst key fm 0 fs]
  constructor
  · intro h p hp hpc
    exact h (List.mem_map.mpr ⟨p, hp, hpc⟩)
  · intro h hmem
    obtain ⟨p, hp, hpc⟩ := List.mem_map.mp hmem
    exact h p hp hpc

/-- A non-wildcard construction with a duplicate-free request: the loop
returns the filter-selected pairs, and the build succeeds exactly when the
final working copy is empty, producing the missing-columns message from it
otherwise. -/
theorem MapperWithKey_nojoker_elim (fs : List Field) (key : String) (cs : List String)
    (hk : key ≠ "") (hcs : cs ≠ []) (hjk : joker cs = false) (hnd : cs.Nodup) :
    ∃ w',
      buildLoop key (some goToLower) (joker cs) fs 0 cs [] [] =
        .ok (w', (selectPairs cs (wildPairs key (some goToLower) 0 fs)).map Prod.fst,
                 (selectPairs cs (wildPairs key (some goToLower) 0 fs)).map Prod.snd)
      ∧ (∀ c, c ∈ w' ↔ (c ∈ cs ∧ c ∉ wildNames key (some goToLower) fs))
      ∧ MapperWithKey (GoType.mk_struct fs) key cs =
          (if w'.isEmpty then
            .ok { fields := (selectPairs cs (wildPairs key (some goToLower) 0 fs)).map Prod.snd,
                  cols := (selectPairs cs (wildPairs key (some goToLower) 0 fs)).map Prod.fst,
                  target := GoType.mk_struct fs, Comma := ',', Mark := '?',
                  FieldMapper := some goToLower }
          else
            .error ("Some fields are missing from target: " ++ String.intercalate "," w')) := by
  obtain ⟨w', h1, _, h3⟩ :=
    buildLoop_nojoker key (some goToLower) fs 0 cs [] [] (by simpa using hnd)
  simp only [List.nil_append] at h1
  refine ⟨w', ?_, ?_, ?_⟩
  · rw [hjk]
    exact h1
  · intro c
    rw [h3 c, not_mem_wildNames_iff]
  · rw [MapperWithKey_struct_eq fs key cs hk hcs, hjk, h1]
    dsimp only
    cases hw : w'.isEmpty with
    | true =>
      have hnil : w' = [] := by simpa using hw
      subst hnil
      simp
    | false => simp [hw]

/-- C3 (amended): for a non-wildcard construction with a non-empty,
pairwise-distinct requested list, the final working copy `w` holds exactly
the requested names no field resolves to; construction succeeds if and only
if it is empty (every requested name matched), and otherwise fails with
`Some fields are missing from target: ` followed by `w` comma-joined in its
remaining (post-swap-removal) order. -/
theorem mapper_C3 (fs : List Field) (key : String) (cs : List String)
    (hk : key ≠ "") (hcs : cs ≠ []) (hjk : joker cs = false) (hnd : cs.Nodup) :
    ∃ w cols flds,
      buildLoop key (some goToLower) (joker cs) fs 0 cs [] [] = .ok (w, cols, flds)
      ∧ (∀ c, c ∈ w ↔ (c ∈ cs ∧ c ∉ wildNames key (some goToLower) fs))
      ∧ (w.isEmpty = true ↔ ∀ c ∈ cs, c ∈ wildNames key (some goToLower) fs)
      ∧ MapperWithKey (GoType.mk_struct fs) key cs =
          (if w.isEmpty then
            .ok { fields := flds, cols := cols, target := GoType.mk_struct fs,
                  Comma := ',', Mark := '?', FieldMapper := some goToLower }
          else
            .error ("Some fields are missing from target: " ++ String.intercalate "," w)) := by
  obtain ⟨w, h1, h2, h3⟩ := MapperWithKey_nojoker_elim fs key cs hk hcs hjk hnd
  refine ⟨w, _, _, h1, h2, ?_, h3⟩
  rw [List.isEmpty_iff]
  constructor
  · intro hwnil c hc
    by_contra hcw
    have : c ∈ w := (h2 c).mpr ⟨hc, hcw⟩
    rw [hwnil] at this
    simp at this
  · intro hall
    rw [List.eq_nil_iff_forall_not_mem]
    intro c hcw
    obtain ⟨hc, hcn⟩ := (h2 c).mp hcw
    exact hcn (hall c hc)

/-- Counterexample to C3 as stated: requesting `b, b` against
`{A string mapper:"b"; B string}` is a non-wildcard construction in which
every requested name is matched (both entries of the working copy are
removed), yet construction fails — with the duplicate-column panic, not
with success. -/
theorem mapper_C3_counterexample :
    joker ["b", "b"] = false
    ∧ "b" ∈ wildNames "mapper" (some goToLower)
        [⟨"A", true, [("mapper", "b")]⟩, ⟨"B", true, []⟩]
    ∧ MapperWithKey
        (GoType.mk_struct [⟨"A", true, [("mapper", "b")]⟩, ⟨"B", true, []⟩])
        "mapper" ["b", "b"] = .error "Field b is mapped more than once" :=
  ⟨rfl, by decide, rfl⟩

/-- Witness for C3 at `{A string; B string}` with request `a, c`
(only `c` stays unmatched). -/
theorem mapper_C3_witness :
    ("mapper" : String) ≠ ""
    ∧ (["a", "c"] : List String) ≠ []
    ∧ joker ["a", "c"] = false
    ∧ (["a", "c"] : List String).Nodup
    ∧ (∃ w cols flds,
        buildLoop "mapper" (some goToLower) (joker ["a", "c"])
          [⟨"A", true, []⟩, ⟨"B", true, []⟩] 0 ["a", "c"] [] [] = .ok (w, cols, flds)
        ∧ (∀ c, c ∈ w ↔ (c ∈ (["a", "c"] : List String)
            ∧ c ∉ wildNames "mapper" (some goToLower) [⟨"A", true, []⟩, ⟨"B", true, []⟩]))
        ∧ (w.isEmpty = true ↔ ∀ c ∈ (["a", "c"] : List String),
            c ∈ wildNames "mapper" (some goToLower) [⟨"A", true, []⟩, ⟨"B", true, []⟩])
        ∧ MapperWithKey (GoType.mk_struct [⟨"A", true, []⟩, ⟨"B", true, []⟩])
            "mapper" ["a", "c"] =
            (if w.isEmpty then
              .ok { fields := flds, cols := cols,
                    target := GoType.mk_struct [⟨"A", true, []⟩, ⟨"B", true, []⟩],
                    Comma := ',', Mark := '?', FieldMapper := some goToLower }
            else
              .error ("Some fields are missing from target: "
                ++ String.intercalate "," w))) :=
  ⟨by decide, by decide, rfl, by decide,
    mapper_C3 [⟨"A", true, []⟩, ⟨"B", true, []⟩] "mapper" ["a", "c"]
      (by decide) (by decide) rfl (by decide)⟩

/-- C10: in non-wildcard mode with pairwise-distinct requested names that
all resolve, construction succeeds (never the duplicate-column panic even
if two fields resolve to the same name); a mapped field position is always
the first field, in declaration order, resolving to its name, and the first
resolver of each requested name is mapped — later fields resolving to the
same name are silently skipped. -/
theorem mapper_C10 (fs : List Field) (key : String) (cs : List String)
    (hk : key ≠ "") (hcs : cs ≠ []) (hjk : joker cs = false) (hnd : cs.Nodup)
    (hall : ∀ c ∈ cs, c ∈ wildNames key (some goToLower) fs) :
    ∃ m, MapperWithKey (GoType.mk_struct fs) key cs = .ok m
      ∧ (∀ j ∈ m.fields, ∀ c, resolvedNameAt key (some goToLower) fs j = some c →
          ∀ i, i < j → resolvedNameAt key (some goToLower) fs i ≠ some c)
      ∧ (∀ i c, resolvedNameAt key (some goToLower) fs i = some c → c ∈ cs →
          (∀ i2, i2 < i → resolvedNameAt key (some goToLower) fs i2 ≠ some c) →
          i ∈ m.fields) := by
  obtain ⟨w, h1, h2, h3⟩ := MapperWithKey_nojoker_elim fs key cs hk hcs hjk hnd
  have hwnil : w = [] := by
    rw [List.eq_nil_iff_forall_not_mem]
    intro c hcw
    obtain ⟨hc, hcn⟩ := (h2 c).mp hcw
    exact hcn (hall c hc)
  subst hwnil
  rw [if_pos (show (List.isEmpty ([] : List String)) = true from rfl)] at h3
  refine ⟨_, h3, ?_, ?_⟩
  · intro j hj c hrc i hij
    intro hri
    dsimp only at hj
    obtain ⟨p, hp, hpj⟩ := List.mem_map.mp hj
    have hpwp := (selectPairs_sub _ _ p hp).1
    obtain ⟨a, b⟩ := p
    dsimp only at hpj
    subst hpj
    obtain ⟨_, hra⟩ := (wildPairs_mem key (some goToLower) fs 0 a b).mp hpwp
    rw [Nat.sub_zero] at hra
    have hac : a = c := by
      rw [hra] at hrc
      exact (Option.some.injEq _ _).mp hrc
    subst hac
    have hq : (a, i) ∈ wildPairs key (some goToLower) 0 fs :=
      (wildPairs_mem key (some goToLower) fs 0 a i).mpr
        ⟨Nat.zero_le i, by rw [Nat.sub_zero]; exact hri⟩
    have hfirst := selectPairs_first (wildPairs key (some goToLower) 0 fs) cs hnd
      (wildPairs_snd_sorted key (some goToLower) fs 0) (a, b) hp (a, i) hq hij
    exact hfirst rfl
  · intro i c hrc hccs hfirst
    have hp : (c, i) ∈ wildPairs key (some goToLower) 0 fs :=
      (wildPairs_mem key (some goToLower) fs 0 c i).mpr
        ⟨Nat.zero_le i, by rw [Nat.sub_zero]; exact hrc⟩
    have hcond : ∀ q ∈ wildPairs key (some goToLower) 0 fs, q.2 < i → q.1 ≠ c := by
      intro q hq hlt
      obtain ⟨a, b⟩ := q
      dsimp only at hlt ⊢
      intro hac
      subst hac
      obtain ⟨_, hrb⟩ := (wildPairs_mem key (some goToLower) fs 0 a b).mp hq
      rw [Nat.sub_zero] at hrb
      exact hfirst b hlt hrb
    have hmem := selectPairs_complete (wildPairs key (some goToLower) 0 fs) cs
      (wildPairs_snd_sorted key (some goToLower) fs 0) (c, i) hp hccs hcond
    dsimp only
    exact List.mem_map.mpr ⟨(c, i), hmem, rfl⟩


/-- Witness for C10 at `fsW10` with the distinct request `b, c`. -/
theorem mapper_C10_witness :
    ("mapper" : String) ≠ ""
    ∧ (["b", "c"] : List String) ≠ []
    ∧ joker ["b", "c"] = false
    ∧ (["b", "c"] : List String).Nodup
    ∧ (∀ c ∈ (["b", "c"] : List String), c ∈ wildNames "mapper" (some goToLower) fsW10)
    ∧ (∃ m, MapperWithKey (GoType.mk_struct fsW10) "mapper" ["b", "c"] = .ok m
        ∧ (∀ j ∈ m.fields, ∀ c,
            resolvedNameAt "mapper" (some goToLower) fsW10 j = some c →
            ∀ i, i < j → resolvedNameAt "mapper" (some goToLower) fsW10 i ≠ some c)
        ∧ (∀ i c, resolvedNameAt "mapper" (some goToLower) fsW10 i = some c →
            c ∈ (["b", "c"] : List String) →
            (∀ i2, i2 < i → resolvedNameAt "mapper" (some goToLower) fsW10 i2 ≠ some c) →
            i ∈ m.fields)) :=
  ⟨by decide, by decide, rfl, by decide, by decide,
    mapper_C10 fsW10 "mapper" ["b", "c"] (by decide) (by decide) rfl (by decide)
      (by decide)⟩

/-! ### The formatted-string round trips -/

theorem cols_out_data (sep : Char) :
    ∀ (rest : List String) (c0 : String),
      (c0 ++ joinCols sep rest).data
        = [sep].intercalate ((c0 :: rest).map String.data) := by
  intro rest
  induction rest with
  | nil =>
    intro c0
    simp [joinCols, List.intercalate, String.data_append]
  | cons c1 rest ih =>
    intro c0
    rw [show ((c0 :: c1 :: rest).map String.data)
        = c0.data :: c1.data :: (rest.map String.data) from rfl]
    rw [show List.intercalate [sep] (c0.data :: c1.data :: (rest.map String.data))
        = c0.data ++ [sep] ++ List.intercalate [sep] (c1.data :: (rest.map String.data)) by
      simp [List.intercalate]]
    rw [show (c1.data :: (rest.map String.data)) = (c1 :: rest).map String.data from rfl]
    rw [← ih c1]
    simp [joinCols, String.data_append, String.singleton]

theorem colsPre_out_data (sep : Char) (p : String) :
    ∀ (rest : List String) (c0 : String),
      (p ++ c0 ++ joinColsPre sep p rest).data
        = [sep].intercalate (((c0 :: rest).map (fun c => p ++ c)).map String.data) := by
  intro rest
  induction rest with
  | nil =>
    intro c0
    simp [joinColsPre, List.intercalate, String.data_append]
  | cons c1 rest ih =>
    intro c0
    rw [show (((c0 :: c1 :: rest).map (fun c => p ++ c)).map String.data)
        = (p ++ c0).data :: (p ++ c1).data
            :: (((c1 :: rest).map (fun c => p ++ c)).map String.data).tail from rfl]
    rw [show List.intercalate [sep] ((p ++ c0).data :: (p ++ c1).data
          :: (((c1 :: rest).map (fun c => p ++ c)).map String.data).tail)
        = (p ++ c0).data ++ [sep] ++ List.intercalate [sep] ((p ++ c1).data
          :: (((c1 :: rest).map (fun c => p ++ c)).map String.data).tail) by
      simp [List.intercalate]]
    rw [show ((p ++ c1).data
          :: (((c1 :: rest).map (fun c => p ++ c)).map String.data).tail)
        = ((c1 :: rest).map (fun c => p ++ c)).map String.data from rfl]
    rw [← ih c1]
    simp [joinColsPre, String.data_append, String.singleton, List.append_assoc]

theorem marks_out_data (sep mark : Char) :
    ∀ (rest : List String),
      (String.singleton mark ++ marksFor sep mark rest).data
        = [sep].intercalate (List.replicate (rest.length + 1) [mark]) := by
  intro rest
  induction rest with
  | nil => simp [marksFor, List.intercalate, String.data_append, String.singleton]
  | cons c1 rest ih =>
    rw [show List.replicate ((c1 :: rest).length + 1) [mark]
        = [mark] :: [mark] :: List.replicate rest.length [mark] by
      simp [List.replicate_succ]]
    rw [show List.intercalate [sep] ([mark] :: [mark] :: List.replicate rest.length [mark])
        = [mark] ++ [sep] ++ List.intercalate [sep] ([mark] :: List.replicate rest.length [mark]) by
      simp [List.intercalate]]
    rw [show ([mark] :: List.replicate rest.length [mark])
        = List.replicate (rest.length + 1) [mark] by simp [List.replicate_succ]]
    rw [← ih]
    simp [marksFor, String.data_append, String.singleton, List.append_assoc]

theorem ColumnsString_ok (m : mapper) (hne : m.cols ≠ []) :
    ∃ s, ColumnsString m = .ok s
      ∧ s.data = [m.Comma].intercalate (m.cols.map String.data) := by
  cases hc : m.cols with
  | nil => exact absurd hc hne
  | cons c rest =>
    cases rest with
    | nil =>
      refine ⟨c, by simp [ColumnsString, hc], ?_⟩
      simp [List.intercalate]
    | cons c2 rest2 =>
      refine ⟨c ++ joinCols m.Comma (c2 :: rest2), by simp [ColumnsString, hc], ?_⟩
      exact cols_out_data m.Comma (c2 :: rest2) c

theorem ColumnsStringPre_ok (m : mapper) (p : String) (hne : m.cols ≠ []) :
    ∃ s, ColumnsStringPre m p = .ok s
      ∧ s.data = [m.Comma].intercalate ((m.cols.map (fun c => p ++ c)).map String.data) := by
  cases hc : m.cols with
  | nil => exact absurd hc hne
  | cons c rest =>
    cases rest with
    | nil =>
      refine ⟨p ++ c, by simp [ColumnsStringPre, hc], ?_⟩
      simp [List.intercalate]
    | cons c2 rest2 =>
      refine ⟨p ++ c ++ joinColsPre m.Comma p (c2 :: rest2),
        by simp [ColumnsStringPre, hc], ?_⟩
      exact colsPre_out_data m.Comma p (c2 :: rest2) c

theorem map_mk_data (l : List String) : (l.map String.data).map String.mk = l := by
  rw [List.map_map]
  have h : (String.mk ∘ String.data) = id := funext (fun s => rfl)
  rw [h, List.map_id]

theorem trimPre_append (p c : String) : trimPre p (p ++ c) = c := by
  unfold trimPre
  rw [String.data_append]
  rw [if_pos ?hpre]
  case hpre =>
    rw [ List.isPrefixOf_iff_prefix]
    exact List.prefix_append p.data c.data
  rw [List.drop_left]

/-- C8 (amended): for every Correspondence with at least one column, none
of whose column names contains the separator character, splitting the
result of `ColumnsString()` on the separator yields exactly `Columns()`;
and for every prefix `p` not containing the separator, splitting the result
of `ColumnsStringPrefix(p)` on the separator and stripping `p` from each
element yields exactly `Columns()`. -/
theorem mapper_C8 (m : mapper) (p : String)
    (hne : m.cols ≠ [])
    (hsep : ∀ c ∈ m.cols, m.Comma ∉ c.data)
    (hp : m.Comma ∉ p.data) :
    (∃ s, ColumnsString m = .ok s ∧ splitGo m.Comma s = Columns m)
    ∧ (∃ s, ColumnsStringPre m p = .ok s
        ∧ (splitGo m.Comma s).map (trimPre p) = Columns m) := by
  constructor
  · obtain ⟨s, hs, hdata⟩ := ColumnsString_ok m hne
    refine ⟨s, hs, ?_⟩
    unfold splitGo Columns
    rw [hdata]
    rw [List.splitOn_intercalate (m.cols.map String.data) m.Comma ?hin ?hnil]
    · exact map_mk_data m.cols
    case hin =>
      intro l hl
      obtain ⟨c, hcm, rfl⟩ := List.mem_map.mp hl
      exact hsep c hcm
    case hnil => simp [hne]
  · obtain ⟨s, hs, hdata⟩ := ColumnsStringPre_ok m p hne
    refine ⟨s, hs, ?_⟩
    unfold splitGo Columns
    rw [hdata]
    rw [List.splitOn_intercalate ((m.cols.map (fun c => p ++ c)).map String.data)
      m.Comma ?hin2 ?hnil2]
    · rw [map_mk_data, List.map_map]
      have h : (trimPre p ∘ fun c => p ++ c) = id := funext (fun c => trimPre_append p c)
      rw [h, List.map_id]
    case hin2 =>
      intro l hl
      obtain ⟨c, hcm, rfl⟩ := List.mem_map.mp hl
      obtain ⟨c0, hc0, rfl⟩ := List.mem_map.mp hcm
      rw [String.data_append]
      intro habs
      rcases List.mem_append.mp habs with h1 | h1
      · exact hp h1
      · exact hsep c0 hc0 h1
    case hnil2 => simp [hne]


/-- Counterexample to C8 as stated: on the Correspondence built from
`{F string mapper:"a,b"}` (a realizable build), splitting `ColumnsString()`
on the separator does not recover `Columns()`, with or without prefix
stripping. -/
theorem mapper_C8_counterexample :
    Mapper (GoType.mk_struct [⟨"F", true, [("mapper", "a,b")]⟩]) ["*"] = .ok mW8
    ∧ ColumnsString mW8 = .ok "a,b"
    ∧ splitGo mW8.Comma "a,b" ≠ Columns mW8
    ∧ ColumnsStringPre mW8 "" = .ok "a,b"
    ∧ (splitGo mW8.Comma "a,b").map (trimPre "") ≠ Columns mW8 :=
  ⟨rfl, rfl, by decide, rfl, by decide⟩


/-- Witness for the amended C8 at the two-column mapper with prefix `t.`. -/
theorem mapper_C8_witness :
    mW8w.cols ≠ []
    ∧ (∀ c ∈ mW8w.cols, mW8w.Comma ∉ c.data)
    ∧ mW8w.Comma ∉ ("t." : String).data
    ∧ ((∃ s, ColumnsString mW8w = .ok s ∧ splitGo mW8w.Comma s = Columns mW8w)
      ∧ (∃ s, ColumnsStringPre mW8w "t." = .ok s
          ∧ (splitGo mW8w.Comma s).map (trimPre "t.") = Columns mW8w)) :=
  ⟨by decide, by decide, by decide,
    mapper_C8 mW8w "t." (by decide) (by decide) (by decide)⟩

/-- C9 (amended): for every Correspondence with at least one column,
`Marks()` returns the string of exactly `len(Columns())` placeholder
characters separated by the separator. -/
theorem mapper_C9 (m : mapper) (hne : m.cols ≠ []) :
    ∃ s, Marks m = .ok s
      ∧ s.data = [m.Comma].intercalate (List.replicate m.cols.length [m.Mark]) := by
  cases hc : m.cols with
  | nil => exact absurd hc hne
  | cons c rest =>
    cases rest with
    | nil =>
      refine ⟨String.singleton m.Mark, by simp [Marks, hc], ?_⟩
      simp [List.intercalate, String.singleton]
    | cons c2 rest2 =>
      refine ⟨String.singleton m.Mark ++ marksFor m.Comma m.Mark (c2 :: rest2),
        by simp [Marks, hc], ?_⟩
      rw [marks_out_data m.Comma m.Mark (c2 :: rest2)]
      simp


/-- Counterexample to C9 as stated: the empty Correspondence produced by
`Subset()` on a built mapper is a Correspondence, and `Marks()` on it hits
the `strings.Builder.Grow` panic instead of returning a string. -/
theorem mapper_C9_counterexample :
    Mapper (GoType.mk_struct [⟨"A", true, []⟩, ⟨"B", true, []⟩]) ["*"] = .ok mW9
    ∧ Columns (Subset mW9 []) = []
    ∧ Marks (Subset mW9 []) = .error "strings.Builder.Grow: negative count" :=
  ⟨rfl, rfl, rfl⟩

/-- Witness for the amended C9 at the two-column mapper. -/
theorem mapper_C9_witness :
    mW9.cols ≠ []
    ∧ ∃ s, Marks mW9 = .ok s
      ∧ s.data = [mW9.Comma].intercalate (List.replicate mW9.cols.length [mW9.Mark]) :=
  ⟨by decide, mapper_C9 mW9 (by decide)⟩


/-- C5 evaluation: passing a pointer to `struct{A string}` passes the
explicit kind check (the kind after one dereference is `struct`), and the
same struct passed directly builds with columns `a` — but the pointer
target itself makes the build die in `reflect.Type.NumField`, because the
field loop iterates `t` (the pointer type), not `t.Elem()`. -/
theorem mapper_C5_bug :
    derefKind (GoType.ptr (GoType.mk_struct [⟨"A", true, []⟩])) = Kind.struct
    ∧ Mapper (GoType.mk_struct [⟨"A", true, []⟩]) ["*"] = .ok mW5
    ∧ Columns mW5 = ["a"]
    ∧ Mapper (GoType.ptr (GoType.mk_struct [⟨"A", true, []⟩])) ["*"]
        = .error "reflect: NumField of non-struct type" :=
  ⟨rfl, rfl, rfl, rfl⟩

/-- C6 evaluation: the mapper built from `struct{A string}` accepts an
instance of the different struct type `struct{X int}` in both `Values` and
`Addrs`, returning its field values and addresses instead of failing
fatally: neither method compares the instance's type with the target
(`mapper.go` lines 222 and 236; the check on line 236 inspects
`reflect.TypeOf(v)` where `v` is a `reflect.Value`, so it never fires). -/
theorem mapper_C6_bug :
    Mapper (GoType.mk_struct [⟨"A", true, []⟩]) ["*"] = .ok mW5
    ∧ ([⟨"X", true, []⟩] : List Field) ≠ [⟨"A", true, []⟩]
    ∧ Values mW5 (GoVal.mk_struct [⟨"X", true, []⟩] [GoVal.int 5]) = .ok [GoVal.int 5]
    ∧ Addrs mW5 (GoVal.mk_ptr (GoVal.mk_struct [⟨"X", true, []⟩] [GoVal.int 5])) = .ok [0] :=
  ⟨rfl, by decide, rfl, rfl⟩

end Mapper
